import Mathlib

/-!
Verification of the Chord ring membership store (`src/chord.rs`) and the
error handling of its caller (`src/main.rs`).

The store keeps its nodes in a `BTreeMap<u16, Node>`; we embed the map as
the ascending list of its keys (the `Node` payload carries nothing beyond
the id).  `rand::thread_rng().gen_range(0..MAX_ID)` is embedded as an
explicit stream `g : Nat → Nat` of samples, each reduced `% MAX_ID` to
land in the keyspace, and the resampling loop of `add_node` is given
explicit fuel: `none` means the loop has not yet found a free id within
the supplied fuel.
-/

/-- The keyspace size: `pub const MAX_ID: u16 = 64`. -/
def MAX_ID : Nat := 64

/-- The error enumeration `ChordError` of `src/chord.rs`. -/
inductive ChordError
  | NoNodesExist
  | NodeDoesNotExist
  | RingIsFull
  | OutOfRange
deriving DecidableEq, Repr

/-- The ring store: the ascending key list of the `BTreeMap<u16, Node>`. -/
structure Chord where
  nodes : List Nat
deriving DecidableEq, Repr

/-- Embedding of `BTreeMap::insert` on the ascending key list: an existing key is
replaced (the key set is unchanged), a fresh key is placed in order. -/
def insertSorted (a : Nat) : List Nat → List Nat
  | [] => [a]
  | b :: t =>
    if a < b then a :: b :: t
    else if a = b then b :: t
    else b :: insertSorted a t

/-- Embedding of `Chord::search`: emptiness check, then range check, then
`self.nodes.range(key..).next()` — on the ascending key list the first
element `≥ key` — falling back to the first node of the ring. -/
def Chord.search (c : Chord) (key : Nat) : Except ChordError Nat :=
  if c.nodes.isEmpty then .error .NoNodesExist
  else if MAX_ID ≤ key then .error .OutOfRange
  else
    match c.nodes.find? (fun x => decide (key ≤ x)) with
    | some n => .ok n
    | none => .ok (c.nodes.headD 0)

/-- Embedding of `Chord::delete_node`: `self.nodes.remove(&id)` succeeds exactly when
the id is present; the pair returns the (possibly unchanged) store next
to the `Result`. -/
def Chord.delete_node (c : Chord) (id : Nat) : Chord × Except ChordError Unit :=
  if id ∈ c.nodes then (⟨c.nodes.erase id⟩, .ok ())
  else (c, .error .NodeDoesNotExist)

/-- The id-selection loop of `Chord::add_node`: sample `g i % MAX_ID`
(the embedding of `rng.gen_range(0..MAX_ID)`), resample while the
candidate collides with an existing member.  `fuel` bounds the number of
samples drawn; `none` means no free id was found within the fuel. -/
def pickId (nodes : List Nat) (g : Nat → Nat) (i : Nat) : Nat → Option Nat
  | 0 => none
  | fuel + 1 =>
    if g i % MAX_ID ∈ nodes then pickId nodes g (i + 1) fuel
    else some (g i % MAX_ID)

/-- Embedding of `Chord::add_node`: fail with `RingIsFull` when every keyspace slot is
occupied, otherwise run the id-selection loop and insert the fresh id. -/
def Chord.add_node (c : Chord) (g : Nat → Nat) (fuel : Nat) :
    Option (Chord × Except ChordError Nat) :=
  if c.nodes.length = MAX_ID then some (c, .error .RingIsFull)
  else
    match pickId c.nodes g 0 fuel with
    | some newId => some (⟨insertSorted newId c.nodes⟩, .ok newId)
    | none => none

/-- Embedding of `Chord::get_ring`: `self.nodes.keys().collect()` — the ascending key
list itself. -/
def Chord.get_ring (c : Chord) : List Nat := c.nodes

/-- The ring invariant: the key list is strictly ascending (as a
`BTreeMap` key sequence is) and every id lies in the keyspace. -/
def RingInv (c : Chord) : Prop :=
  c.nodes.Sorted (· < ·) ∧ ∀ x ∈ c.nodes, x < MAX_ID

/-- Successor routing, stated from the spec's words: `n` is the member
with the smallest id that is at least `key`; when no member id is at
least `key`, `n` is the member with the smallest id overall. -/
def SuccessorOf (l : List Nat) (key n : Nat) : Prop :=
  n ∈ l ∧
  ((∃ m ∈ l, key ≤ m) → key ≤ n ∧ ∀ m ∈ l, key ≤ m → n ≤ m) ∧
  ((∀ m ∈ l, m < key) → ∀ m ∈ l, n ≤ m)

/-- States reachable from the empty ring through the store operations
(`search` and `get_ring` take `&self` and cannot change the state). -/
inductive Reachable : Chord → Prop
  | init : Reachable ⟨[]⟩
  | add (c : Chord) (g : Nat → Nat) (fuel : Nat) (c' : Chord)
      (r : Except ChordError Nat) :
      Reachable c → c.add_node g fuel = some (c', r) → Reachable c'
  | del (c : Chord) (id : Nat) :
      Reachable c → Reachable (c.delete_node id).1

/-- Outcome of the caller's error handling in `src/main.rs`. -/
inductive CallerOutcome
  | surfaced
  | panicked
deriving DecidableEq, Repr

/-- Embedding of `App::submit_query` from `src/main.rs`: an `Ok` node and an
`OutOfRange` error each produce a user-facing result message; every
other error falls into the wildcard arm
`_ => panic!("Unhandled error in submit_query")`. -/
def submit_query (c : Chord) (key : Nat) : CallerOutcome :=
  match c.search key with
  | .ok _ => .surfaced
  | .error .OutOfRange => .surfaced
  | .error _ => .panicked

/-- Embedding of `App::submit_deletion` from `src/main.rs`: success and
`NodeDoesNotExist` each produce a result message; every other error
falls into a wildcard `panic!` arm (none is reachable from
`delete_node`). -/
def submit_deletion (c : Chord) (id : Nat) : CallerOutcome :=
  match (c.delete_node id).2 with
  | .ok _ => .surfaced
  | .error .NodeDoesNotExist => .surfaced
  | .error _ => .panicked

/-! ### Basic lemmas about the embedded operations -/

lemma mem_insertSorted (a b : Nat) (l : List Nat) :
    b ∈ insertSorted a l ↔ b = a ∨ b ∈ l := by
  induction l with
  | nil => simp [insertSorted]
  | cons c t ih =>
    have hunf : insertSorted a (c :: t)
        = if a < c then a :: c :: t
          else if a = c then c :: t else c :: insertSorted a t := rfl
    rcases Nat.lt_trichotomy a c with h1 | h1 | h1
    · rw [hunf, if_pos h1]
      simp only [List.mem_cons]
    · subst h1
      rw [hunf, if_neg (Nat.lt_irrefl a), if_pos rfl]
      simp only [List.mem_cons]
      tauto
    · have hnlt : ¬ a < c := by omega
      have hne : a ≠ c := by omega
      rw [hunf, if_neg hnlt, if_neg hne]
      simp only [List.mem_cons, ih]
      tauto

lemma sorted_insertSorted (a : Nat) (l : List Nat) (h : l.Sorted (· < ·)) :
    (insertSorted a l).Sorted (· < ·) := by
  induction l with
  | nil => simp [insertSorted]
  | cons c t ih =>
    have hunf : insertSorted a (c :: t)
        = if a < c then a :: c :: t
          else if a = c then c :: t else c :: insertSorted a t := rfl
    rw [List.sorted_cons] at h
    rcases Nat.lt_trichotomy a c with h1 | h1 | h1
    · rw [hunf, if_pos h1, List.sorted_cons]
      constructor
      · intro b hb
        rcases List.mem_cons.mp hb with rfl | hb
        · exact h1
        · exact Nat.lt_trans h1 (h.1 b hb)
      · rw [List.sorted_cons]
        exact h
    · subst h1
      rw [hunf, if_neg (Nat.lt_irrefl a), if_pos rfl, List.sorted_cons]
      exact h
    · have hnlt : ¬ a < c := by omega
      have hne : a ≠ c := by omega
      rw [hunf, if_neg hnlt, if_neg hne, List.sorted_cons]
      refine ⟨?_, ih h.2⟩
      intro b hb
      rw [mem_insertSorted] at hb
      rcases hb with rfl | hb
      · omega
      · exact h.1 b hb

lemma length_insertSorted_of_not_mem (a : Nat) (l : List Nat) (h : a ∉ l) :
    (insertSorted a l).length = l.length + 1 := by
  induction l with
  | nil => rfl
  | cons c t ih =>
    rw [List.mem_cons] at h
    push_neg at h
    by_cases h1 : a < c
    · simp [insertSorted, h1]
    · simp [insertSorted, h1, h.1, ih h.2]

lemma pickId_some (nodes : List Nat) (g : Nat → Nat) :
    ∀ fuel i id, pickId nodes g i fuel = some id → id ∉ nodes ∧ id < MAX_ID := by
  intro fuel
  induction fuel with
  | zero => intro i id h; simp [pickId] at h
  | succ n ih =>
    intro i id h
    by_cases hc : g i % MAX_ID ∈ nodes
    · rw [pickId, if_pos hc] at h
      exact ih (i + 1) id h
    · rw [pickId, if_neg hc] at h
      cases h
      exact ⟨hc, Nat.mod_lt _ (by decide)⟩

lemma pickId_succeeds (nodes : List Nat) (g : Nat → Nat) :
    ∀ n i, g (i + n) % MAX_ID ∉ nodes →
      ∃ id, pickId nodes g i (n + 1) = some id := by
  intro n
  induction n with
  | zero =>
    intro i h
    rw [Nat.add_zero] at h
    exact ⟨g i % MAX_ID, by rw [pickId, if_neg h]⟩
  | succ n ih =>
    intro i h
    by_cases hc : g i % MAX_ID ∈ nodes
    · have h' : g ((i + 1) + n) % MAX_ID ∉ nodes := by
        have : (i + 1) + n = i + (n + 1) := by omega
        rwa [this]
      obtain ⟨id, hid⟩ := ih (i + 1) h'
      exact ⟨id, by rw [pickId, if_pos hc]; exact hid⟩
    · exact ⟨g i % MAX_ID, by rw [pickId, if_neg hc]⟩

lemma sorted_nodup (l : List Nat) (h : l.Sorted (· < ·)) : l.Nodup :=
  h.imp Nat.ne_of_lt

lemma length_le_MAX (l : List Nat) (hn : l.Nodup) (hb : ∀ x ∈ l, x < MAX_ID) :
    l.length ≤ MAX_ID := by
  have hsub : l.toFinset ⊆ Finset.range MAX_ID := fun k hk =>
    Finset.mem_range.mpr (hb k (List.mem_toFinset.mp hk))
  have hcard := Finset.card_le_card hsub
  rwa [Finset.card_range, List.toFinset_card_of_nodup hn] at hcard

lemma exists_free_id (l : List Nat) (hn : l.Nodup)
    (hlen : l.length < MAX_ID) : ∃ k, k < MAX_ID ∧ k ∉ l := by
  by_contra h
  push_neg at h
  have hsub : Finset.range MAX_ID ⊆ l.toFinset := by
    intro k hk
    rw [List.mem_toFinset]
    exact h k (Finset.mem_range.mp hk)
  have hcard := Finset.card_le_card hsub
  rw [Finset.card_range, List.toFinset_card_of_nodup hn] at hcard
  omega

lemma find?_sorted_min (key : Nat) :
    ∀ (l : List Nat), l.Sorted (· < ·) →
      ∀ n, l.find? (fun x => decide (key ≤ x)) = some n →
        n ∈ l ∧ key ≤ n ∧ ∀ m ∈ l, key ≤ m → n ≤ m := by
  intro l
  induction l with
  | nil => intro _ n h; simp at h
  | cons b t ih =>
    intro hs n h
    rw [List.sorted_cons] at hs
    by_cases hb : key ≤ b
    · rw [List.find?_cons_of_pos _ (by simpa using hb)] at h
      cases h
      refine ⟨List.mem_cons_self b t, hb, ?_⟩
      intro m hm _
      rcases List.mem_cons.mp hm with rfl | hm
      · exact Nat.le_refl m
      · exact Nat.le_of_lt (hs.1 m hm)
    · rw [List.find?_cons_of_neg _ (by simpa using hb)] at h
      obtain ⟨hmem, hkey, hmin⟩ := ih hs.2 n h
      refine ⟨List.mem_cons_of_mem b hmem, hkey, ?_⟩
      intro m hm hkm
      rcases List.mem_cons.mp hm with rfl | hm
      · exact absurd hkm hb
      · exact hmin m hm hkm

lemma find?_none_all_lt (key : Nat) (l : List Nat)
    (h : l.find? (fun x => decide (key ≤ x)) = none) : ∀ m ∈ l, m < key := by
  intro m hm
  have hnm := List.find?_eq_none.mp h m hm
  simp only [decide_eq_true_eq] at hnm
  omega

lemma find?_self_mem (key : Nat) (l : List Nat) (hs : l.Sorted (· < ·))
    (hm : key ∈ l) : l.find? (fun x => decide (key ≤ x)) = some key := by
  induction l with
  | nil => simp at hm
  | cons b t ih =>
    rw [List.sorted_cons] at hs
    by_cases hb : key ≤ b
    · have hkb : key = b := by
        rcases List.mem_cons.mp hm with rfl | hmt
        · rfl
        · exact absurd (hs.1 key hmt) (by omega)
      subst hkb
      exact List.find?_cons_of_pos _ (by simp)
    · have hmt : key ∈ t := by
        rcases List.mem_cons.mp hm with rfl | hmt
        · omega
        · exact hmt
      rw [List.find?_cons_of_neg _ (by simpa using hb)]
      exact ih hs.2 hmt

lemma headD_min (l : List Nat) (hs : l.Sorted (· < ·)) (hne : l ≠ []) :
    l.headD 0 ∈ l ∧ ∀ m ∈ l, l.headD 0 ≤ m := by
  cases l with
  | nil => exact absurd rfl hne
  | cons b t =>
    rw [List.sorted_cons] at hs
    refine ⟨List.mem_cons_self b t, ?_⟩
    intro m hm
    rcases List.mem_cons.mp hm with rfl | hmt
    · exact Nat.le_refl m
    · exact Nat.le_of_lt (hs.1 m hmt)

lemma search_eq_of_nonempty (c : Chord) (key : Nat) (hne : c.nodes ≠ [])
    (hk : key < MAX_ID) :
    c.search key
      = match c.nodes.find? (fun x => decide (key ≤ x)) with
        | some n => .ok n
        | none => .ok (c.nodes.headD 0) := by
  unfold Chord.search
  rw [if_neg (by simp [hne]), if_neg (by omega)]

/-! ### Invariant preservation and reachability -/

lemma ringInv_delete (c : Chord) (id : Nat) (h : RingInv c) :
    RingInv (c.delete_node id).1 := by
  unfold Chord.delete_node
  by_cases hm : id ∈ c.nodes
  · rw [if_pos hm]
    refine ⟨h.1.sublist (c.nodes.erase_sublist id), ?_⟩
    intro x hx
    exact h.2 x ((c.nodes.erase_sublist id).mem hx)
  · rw [if_neg hm]
    exact h

lemma ringInv_add (c : Chord) (g : Nat → Nat) (fuel : Nat) (c' : Chord)
    (r : Except ChordError Nat) (h : RingInv c)
    (hadd : c.add_node g fuel = some (c', r)) : RingInv c' := by
  unfold Chord.add_node at hadd
  by_cases hfull : c.nodes.length = MAX_ID
  · rw [if_pos hfull] at hadd
    cases hadd
    exact h
  · rw [if_neg hfull] at hadd
    cases hpick : pickId c.nodes g 0 fuel with
    | none => rw [hpick] at hadd; cases hadd
    | some newId =>
      rw [hpick] at hadd
      cases hadd
      obtain ⟨hfree, hlt⟩ := pickId_some c.nodes g fuel 0 newId hpick
      refine ⟨sorted_insertSorted newId c.nodes h.1, ?_⟩
      intro x hx
      rcases (mem_insertSorted newId x c.nodes).mp hx with rfl | hx
      · exact hlt
      · exact h.2 x hx

lemma reachable_ringInv (c : Chord) (h : Reachable c) : RingInv c := by
  induction h with
  | init => exact ⟨List.sorted_nil, by simp⟩
  | add c g fuel c' r _ hadd ih => exact ringInv_add c g fuel c' r ih hadd
  | del c id _ ih => exact ringInv_delete c id ih

/-- A concrete reachable nonempty state: one `add_node` step from the
empty ring with a sampler that draws 5 first. -/
lemma reachable_five : Reachable (⟨[5]⟩ : Chord) :=
  Reachable.add ⟨[]⟩ (fun _ => 5) 1 ⟨[5]⟩ (.ok 5) Reachable.init rfl

/-! ### Claim theorems -/

/-- C1: on every non-empty ring satisfying the ring invariant and every
key in `[0, MAX_ID)`, `search` succeeds and returns the member with the
smallest id at least `key`, wrapping around to the smallest member
overall when no member id is at least `key`. -/
theorem search_successor_routing (c : Chord) (key : Nat)
    (hinv : RingInv c) (hne : c.nodes ≠ []) (hk : key < MAX_ID) :
    ∃ n, c.search key = .ok n ∧ SuccessorOf c.nodes key n := by
  have hs := search_eq_of_nonempty c key hne hk
  cases hfind : c.nodes.find? (fun x => decide (key ≤ x)) with
  | some n =>
    simp only [hfind] at hs
    obtain ⟨hmem, hkey, hmin⟩ := find?_sorted_min key c.nodes hinv.1 n hfind
    refine ⟨n, hs, hmem, fun _ => ⟨hkey, hmin⟩, fun hall m hmmem => ?_⟩
    have h1 := hall n hmem
    omega
  | none =>
    simp only [hfind] at hs
    have hall := find?_none_all_lt key c.nodes hfind
    obtain ⟨hmem, hmin⟩ := headD_min c.nodes hinv.1 hne
    refine ⟨c.nodes.headD 0, hs, hmem, fun hex => ?_, fun _ => hmin⟩
    obtain ⟨m, hm, hkm⟩ := hex
    have h1 := hall m hm
    omega

/-- Witness for C1 at the spec's wraparound example: members 5, 20, 50
with keyspace 64; search 60 wraps to 5, search 6 resolves to 20, and
search 5 resolves to 5. -/
theorem search_successor_routing_witness :
    Chord.search ⟨[5, 20, 50]⟩ 60 = .ok 5 ∧
    Chord.search ⟨[5, 20, 50]⟩ 6 = .ok 20 ∧
    Chord.search ⟨[5, 20, 50]⟩ 5 = .ok 5 ∧
    (∃ n, Chord.search ⟨[5, 20, 50]⟩ 60 = .ok n ∧
      SuccessorOf (⟨[5, 20, 50]⟩ : Chord).nodes 60 n) := by
  have hinv : RingInv ⟨[5, 20, 50]⟩ := ⟨by decide, by decide⟩
  exact ⟨rfl, rfl, rfl,
    search_successor_routing ⟨[5, 20, 50]⟩ 60 hinv (by decide) (by decide)⟩

/-- C2: `search` fails with `NoNodesExist` exactly on the empty ring —
for every key, including keys at or above `MAX_ID` — fails with
`OutOfRange` exactly on a non-empty ring with a key at or above
`MAX_ID`, and succeeds otherwise. -/
theorem search_error_characterization (c : Chord) (key : Nat) :
    (c.search key = .error .NoNodesExist ↔ c.nodes = []) ∧
    (c.search key = .error .OutOfRange ↔ (c.nodes ≠ [] ∧ MAX_ID ≤ key)) ∧
    ((∃ n, c.search key = .ok n) ↔ (c.nodes ≠ [] ∧ key < MAX_ID)) := by
  by_cases hne : c.nodes = []
  · have hs : c.search key = .error .NoNodesExist := by
      unfold Chord.search
      rw [if_pos (by simp [hne])]
    rw [hs]
    simp [hne]
  · by_cases hk : MAX_ID ≤ key
    · have hs : c.search key = .error .OutOfRange := by
        unfold Chord.search
        rw [if_neg (by simp [hne]), if_pos hk]
      rw [hs]
      simp [hne, hk]
    · have hs := search_eq_of_nonempty c key hne (by omega)
      cases hfind : c.nodes.find? (fun x => decide (key ≤ x)) with
      | some n =>
        simp only [hfind] at hs
        rw [hs]
        simp [hne]
        omega
      | none =>
        simp only [hfind] at hs
        rw [hs]
        simp [hne]
        omega

/-- Witness for C2: empty ring with an out-of-range key still reports
`NoNodesExist`; a singleton ring reports `OutOfRange` at key 99 and
succeeds at key 3. -/
theorem search_error_characterization_witness :
    Chord.search ⟨[]⟩ 99 = .error .NoNodesExist ∧
    Chord.search ⟨[5]⟩ 99 = .error .OutOfRange ∧
    (∃ n, Chord.search ⟨[5]⟩ 3 = .ok n) := by
  refine ⟨?_, ?_, ?_⟩
  · exact (search_error_characterization ⟨[]⟩ 99).1.mpr rfl
  · exact (search_error_characterization ⟨[5]⟩ 99).2.1.mpr
      ⟨by decide, by decide⟩
  · exact (search_error_characterization ⟨[5]⟩ 3).2.2.mpr
      ⟨by decide, by decide⟩

/-- C3: every state reachable from the empty ring satisfies the ring
invariant — stored ids pairwise distinct and inside the keyspace — and
its membership count never exceeds `MAX_ID`; moreover `add_node` and
`delete_node` step from it to states that again satisfy both (`search`
and `get_ring` do not mutate the store at all). -/
theorem ring_invariant_reachable (c : Chord) (h : Reachable c) :
    (RingInv c ∧ c.nodes.Nodup ∧ (∀ x ∈ c.nodes, x < MAX_ID) ∧
      c.nodes.length ≤ MAX_ID) ∧
    (∀ g fuel c' r, c.add_node g fuel = some (c', r) →
      RingInv c' ∧ c'.nodes.length ≤ MAX_ID) ∧
    (∀ id, RingInv (c.delete_node id).1 ∧
      (c.delete_node id).1.nodes.length ≤ MAX_ID) := by
  have hinv := reachable_ringInv c h
  have hlen : ∀ d : Chord, RingInv d → d.nodes.length ≤ MAX_ID := fun d hd =>
    length_le_MAX d.nodes (sorted_nodup d.nodes hd.1) hd.2
  refine ⟨⟨hinv, sorted_nodup c.nodes hinv.1, hinv.2, hlen c hinv⟩, ?_, ?_⟩
  · intro g fuel c' r hadd
    have hinv' := ringInv_add c g fuel c' r hinv hadd
    exact ⟨hinv', hlen c' hinv'⟩
  · intro id
    have hinv' := ringInv_delete c id hinv
    exact ⟨hinv', hlen _ hinv'⟩

/-- Witness for C3 at the reachable one-member state with id 5. -/
theorem ring_invariant_reachable_witness :
    RingInv ⟨[5]⟩ ∧ (⟨[5]⟩ : Chord).nodes.length ≤ MAX_ID :=
  ⟨(ring_invariant_reachable ⟨[5]⟩ reachable_five).1.1,
   (ring_invariant_reachable ⟨[5]⟩ reachable_five).1.2.2.2⟩

/-- C4 (failing input): on the empty ring — reachable in the app by
deleting the startup node — `search` returns `NoNodesExist`, and the
caller `App::submit_query` reaches its wildcard arm, which panics with
"Unhandled error in submit_query" instead of surfacing a user-facing
message.  By contrast `OutOfRange` on search and `NodeDoesNotExist` on
deletion are surfaced as messages. -/
theorem submit_query_panics_on_empty_ring :
    Chord.search ⟨[]⟩ 0 = .error .NoNodesExist ∧
    submit_query ⟨[]⟩ 0 = .panicked ∧
    submit_query ⟨[5]⟩ 99 = .surfaced ∧
    submit_deletion ⟨[]⟩ 3 = .surfaced :=
  ⟨rfl, rfl, rfl, rfl⟩

/-- C5: `add_node` fails with `RingIsFull` — leaving the ring unchanged —
exactly when the membership count equals `MAX_ID`; each successful add
grows the count by one (so `MAX_ID` successful adds from empty reach the
full count and the next add fails); and below capacity, with a sampler
that reaches every keyspace value, `add_node` succeeds for some fuel. -/
theorem add_node_full_iff (c : Chord) (g : Nat → Nat) (hinv : RingInv c) :
    (∀ fuel, c.add_node g fuel = some (c, .error .RingIsFull) ↔
      c.nodes.length = MAX_ID) ∧
    (∀ fuel c' id, c.add_node g fuel = some (c', .ok id) →
      c'.nodes.length = c.nodes.length + 1) ∧
    (c.nodes.length < MAX_ID → (∀ k, k < MAX_ID → ∃ i, g i % MAX_ID = k) →
      ∃ fuel c' id, c.add_node g fuel = some (c', .ok id)) := by
  refine ⟨?_, ?_, ?_⟩
  · intro fuel
    by_cases hfull : c.nodes.length = MAX_ID
    · unfold Chord.add_node
      rw [if_pos hfull]
      exact ⟨fun _ => hfull, fun _ => rfl⟩
    · unfold Chord.add_node
      rw [if_neg hfull]
      cases hpick : pickId c.nodes g 0 fuel with
      | some newId => simp [hfull]
      | none => simp [hfull]
  · intro fuel c' id hadd
    unfold Chord.add_node at hadd
    by_cases hfull : c.nodes.length = MAX_ID
    · rw [if_pos hfull] at hadd
      simp at hadd
    · rw [if_neg hfull] at hadd
      cases hpick : pickId c.nodes g 0 fuel with
      | none => simp [hpick] at hadd
      | some newId =>
        simp only [hpick, Option.some.injEq, Prod.mk.injEq,
          Except.ok.injEq] at hadd
        obtain ⟨hc', hid⟩ := hadd
        subst hid
        rw [← hc']
        exact length_insertSorted_of_not_mem newId c.nodes
          (pickId_some c.nodes g fuel 0 newId hpick).1
  · intro hlt hg
    obtain ⟨k, hk, hkfree⟩ :=
      exists_free_id c.nodes (sorted_nodup c.nodes hinv.1) hlt
    obtain ⟨i, hi⟩ := hg k hk
    have hfree : g (0 + i) % MAX_ID ∉ c.nodes := by
      rw [Nat.zero_add, hi]
      exact hkfree
    obtain ⟨id, hid⟩ := pickId_succeeds c.nodes g i 0 hfree
    refine ⟨i + 1, ⟨insertSorted id c.nodes⟩, id, ?_⟩
    unfold Chord.add_node
    rw [if_neg (by omega)]
    simp only [hid]

/-- Witness for C5 at a singleton ring: one member is not a full ring,
so the failure equation is refuted on both sides at fuel 0. -/
theorem add_node_full_iff_witness :
    ¬ (Chord.add_node ⟨[5]⟩ (fun j => j) 0
        = some (⟨[5]⟩, .error .RingIsFull)) ∧
    ¬ ((⟨[5]⟩ : Chord).nodes.length = MAX_ID) := by
  have hinv : RingInv ⟨[5]⟩ := ⟨by decide, by decide⟩
  have hiff := (add_node_full_iff ⟨[5]⟩ (fun j => j) hinv).1 0
  have hne : ¬ ((⟨[5]⟩ : Chord).nodes.length = MAX_ID) := by decide
  exact ⟨fun hcontra => hne (hiff.mp hcontra), hne⟩

/-- C6: `delete_node` succeeds exactly when the id is a member; on
success the membership count drops by one, the id is gone from the ring,
and an immediately repeated delete fails with `NodeDoesNotExist` without
touching the state; on failure it reports `NodeDoesNotExist` and the
ring is completely unchanged. -/
theorem delete_node_correct (c : Chord) (id : Nat) (hinv : RingInv c) :
    ((c.delete_node id).2 = .ok () ↔ id ∈ c.nodes) ∧
    ((c.delete_node id).2 = .error .NodeDoesNotExist ↔ id ∉ c.nodes) ∧
    (id ∈ c.nodes →
      (c.delete_node id).1.nodes.length + 1 = c.nodes.length ∧
      id ∉ (c.delete_node id).1.get_ring ∧
      ((c.delete_node id).1.delete_node id).2 = .error .NodeDoesNotExist ∧
      ((c.delete_node id).1.delete_node id).1 = (c.delete_node id).1) ∧
    (id ∉ c.nodes → (c.delete_node id).1 = c) := by
  have hnodup := sorted_nodup c.nodes hinv.1
  by_cases hm : id ∈ c.nodes
  · have hdel : c.delete_node id = (⟨c.nodes.erase id⟩, .ok ()) := by
      unfold Chord.delete_node
      rw [if_pos hm]
    have hnotmem : id ∉ c.nodes.erase id := hnodup.not_mem_erase
    have hdel2 : (⟨c.nodes.erase id⟩ : Chord).delete_node id
        = (⟨c.nodes.erase id⟩, .error .NodeDoesNotExist) := by
      unfold Chord.delete_node
      rw [if_neg hnotmem]
    simp only [hdel, hdel2, Chord.get_ring]
    refine ⟨⟨fun _ => hm, fun _ => trivial⟩,
      ⟨fun hcontra => by simp at hcontra, fun hcontra => absurd hm hcontra⟩,
      fun _ => ?_, fun hcontra => absurd hm hcontra⟩
    have hlp := List.length_pos_of_mem hm
    have hle := List.length_erase_of_mem hm
    exact ⟨by omega, hnotmem, trivial, trivial⟩
  · have hdel : c.delete_node id = (c, .error .NodeDoesNotExist) := by
      unfold Chord.delete_node
      rw [if_neg hm]
    simp only [hdel]
    exact ⟨⟨fun hcontra => by simp at hcontra, fun hcontra => absurd hcontra hm⟩,
      ⟨fun _ => hm, fun _ => trivial⟩,
      fun hcontra => absurd hcontra hm, fun _ => trivial⟩

/-- Witness for C6 with members 5, 20, 50 and deletion of 20. -/
theorem delete_node_correct_witness :
    ((Chord.delete_node ⟨[5, 20, 50]⟩ 20).2 = .ok ()
      ↔ 20 ∈ (⟨[5, 20, 50]⟩ : Chord).nodes) ∧
    20 ∈ (⟨[5, 20, 50]⟩ : Chord).nodes := by
  have hinv : RingInv ⟨[5, 20, 50]⟩ := ⟨by decide, by decide⟩
  exact ⟨(delete_node_correct ⟨[5, 20, 50]⟩ 20 hinv).1, by decide⟩

/-- C7: whenever `add_node` succeeds with id `x`, an immediate `search`
for key `x` on the new (non-empty) ring succeeds and resolves to `x`. -/
theorem add_search_roundtrip (c : Chord) (g : Nat → Nat) (fuel : Nat)
    (c' : Chord) (x : Nat) (hinv : RingInv c)
    (hadd : c.add_node g fuel = some (c', .ok x)) :
    c'.search x = .ok x := by
  unfold Chord.add_node at hadd
  by_cases hfull : c.nodes.length = MAX_ID
  · rw [if_pos hfull] at hadd
    simp at hadd
  · rw [if_neg hfull] at hadd
    cases hpick : pickId c.nodes g 0 fuel with
    | none => simp [hpick] at hadd
    | some newId =>
      simp only [hpick, Option.some.injEq, Prod.mk.injEq,
        Except.ok.injEq] at hadd
      obtain ⟨hc', hx⟩ := hadd
      subst hx
      obtain ⟨hfree, hlt⟩ := pickId_some c.nodes g fuel 0 newId hpick
      have hsorted : c'.nodes.Sorted (· < ·) := by
        rw [← hc']
        exact sorted_insertSorted newId c.nodes hinv.1
      have hmem : newId ∈ c'.nodes := by
        rw [← hc']
        exact (mem_insertSorted newId newId c.nodes).mpr (Or.inl rfl)
      have hne : c'.nodes ≠ [] := List.ne_nil_of_mem hmem
      rw [search_eq_of_nonempty c' newId hne hlt]
      simp only [find?_self_mem newId c'.nodes hsorted hmem]

/-- Witness for C7: adding to the empty ring with a sampler drawing 5
gives id 5, and searching 5 resolves to node 5. -/
theorem add_search_roundtrip_witness :
    Chord.add_node ⟨[]⟩ (fun _ => 5) 1 = some (⟨[5]⟩, .ok 5) ∧
    Chord.search ⟨[5]⟩ 5 = .ok 5 := by
  have hinv : RingInv ⟨[]⟩ := ⟨List.sorted_nil, by simp⟩
  exact ⟨rfl, add_search_roundtrip ⟨[]⟩ (fun _ => 5) 1 ⟨[5]⟩ 5 hinv rfl⟩

/-- C8: `get_ring` returns exactly the current member ids in ascending
order.  The embedding is state-passing, mirroring that the Rust snapshot
is an immutable view the borrow checker keeps stable across its
lifetime: a snapshot taken before a mutation keeps its contents — after
a delete of `id` the pre-delete ring value still contains `id` while the
store's new ring does not. -/
theorem get_ring_snapshot (c : Chord) (hinv : RingInv c) :
    c.get_ring.Sorted (· < ·) ∧
    (∀ x, x ∈ c.get_ring ↔ x ∈ c.nodes) ∧
    (∀ id, id ∈ c.nodes →
      id ∈ c.get_ring ∧ id ∉ (c.delete_node id).1.get_ring) := by
  refine ⟨hinv.1, fun x => Iff.rfl, ?_⟩
  intro id hm
  have hnodup := sorted_nodup c.nodes hinv.1
  have hdel : c.delete_node id = (⟨c.nodes.erase id⟩, .ok ()) := by
    unfold Chord.delete_node
    rw [if_pos hm]
  refine ⟨hm, ?_⟩
  rw [hdel]
  exact hnodup.not_mem_erase

/-- Witness for C8 with members 5, 20, 50: the ring is sorted, and after
deleting 20 the pre-delete snapshot still contains 20 while the new ring
does not. -/
theorem get_ring_snapshot_witness :
    (⟨[5, 20, 50]⟩ : Chord).get_ring.Sorted (· < ·) ∧
    (20 ∈ (⟨[5, 20, 50]⟩ : Chord).get_ring ∧
      20 ∉ (Chord.delete_node ⟨[5, 20, 50]⟩ 20).1.get_ring) := by
  have hinv : RingInv ⟨[5, 20, 50]⟩ := ⟨by decide, by decide⟩
  exact ⟨(get_ring_snapshot ⟨[5, 20, 50]⟩ hinv).1,
    (get_ring_snapshot ⟨[5, 20, 50]⟩ hinv).2.2 20 (by decide)⟩

/-- C9: whenever the ring is not full a free keyspace id exists, and for
every sampling stream that reaches each keyspace value at some index —
as a uniform random generator does with probability one — the resampling
loop of `add_node` halts on a free id with some finite fuel, so
`add_node` returns a successful result. -/
theorem add_node_loop_terminates (c : Chord) (g : Nat → Nat)
    (hinv : RingInv c) (hlt : c.nodes.length < MAX_ID)
    (hg : ∀ k, k < MAX_ID → ∃ i, g i % MAX_ID = k) :
    (∃ k, k < MAX_ID ∧ k ∉ c.nodes) ∧
    ∃ fuel id, pickId c.nodes g 0 fuel = some id ∧ id ∉ c.nodes ∧
      id < MAX_ID ∧
      c.add_node g fuel = some (⟨insertSorted id c.nodes⟩, .ok id) := by
  obtain ⟨k, hk, hkfree⟩ :=
    exists_free_id c.nodes (sorted_nodup c.nodes hinv.1) hlt
  refine ⟨⟨k, hk, hkfree⟩, ?_⟩
  obtain ⟨i, hi⟩ := hg k hk
  have hfree : g (0 + i) % MAX_ID ∉ c.nodes := by
    rw [Nat.zero_add, hi]
    exact hkfree
  obtain ⟨id, hid⟩ := pickId_succeeds c.nodes g i 0 hfree
  obtain ⟨hnm, hidlt⟩ := pickId_some c.nodes g (i + 1) 0 id hid
  refine ⟨i + 1, id, hid, hnm, hidlt, ?_⟩
  unfold Chord.add_node
  rw [if_neg (by omega)]
  simp only [hid]

/-- Witness for C9 at the singleton ring with the identity sampler,
which reaches every keyspace value. -/
theorem add_node_loop_terminates_witness :
    (∃ k, k < MAX_ID ∧ k ∉ (⟨[5]⟩ : Chord).nodes) ∧
    ∃ fuel id, pickId (⟨[5]⟩ : Chord).nodes (fun j => j) 0 fuel = some id ∧
      id ∉ (⟨[5]⟩ : Chord).nodes ∧ id < MAX_ID ∧
      Chord.add_node ⟨[5]⟩ (fun j => j) fuel
        = some (⟨insertSorted id (⟨[5]⟩ : Chord).nodes⟩, .ok id) := by
  have hinv : RingInv ⟨[5]⟩ := ⟨by decide, by decide⟩
  exact add_node_loop_terminates ⟨[5]⟩ (fun j => j) hinv (by decide)
    (fun k hk => ⟨k, Nat.mod_eq_of_lt hk⟩)

/-- C10: on every reachable state, deleting an id at or above `MAX_ID`
fails with `NodeDoesNotExist` and leaves the ring unchanged, because
every member id generated by `add_node` lies inside the keyspace. -/
theorem delete_out_of_range (c : Chord) (id : Nat) (h : Reachable c)
    (hid : MAX_ID ≤ id) :
    (c.delete_node id).2 = .error .NodeDoesNotExist ∧
    (c.delete_node id).1 = c := by
  have hinv := reachable_ringInv c h
  have hnm : id ∉ c.nodes := fun hm => by
    have := hinv.2 id hm
    omega
  unfold Chord.delete_node
  rw [if_neg hnm]
  exact ⟨rfl, rfl⟩

/-- Witness for C10 at the reachable singleton ring and id 64, the
smallest out-of-keyspace id. -/
theorem delete_out_of_range_witness :
    (Chord.delete_node ⟨[5]⟩ 64).2 = .error .NodeDoesNotExist ∧
    (Chord.delete_node ⟨[5]⟩ 64).1 = ⟨[5]⟩ :=
  delete_out_of_range ⟨[5]⟩ 64 reachable_five (by decide)
